import Mathlib

/- Formal model of the lambdachain sequence-combinator library.

   The development shallowly embeds the Python sources:
   - src/lambdachain/functions.py   (fold, foldc, unique, unique_by, groupby_)
   - src/lambdachain/lambda_chain.py (LambdaChain methods, curry, uncurry, ForceProxy)
   - src/lambdachain/utils.py       (assert_callable, assert_genexpr)

   Python values that matter to the claims are modelled explicitly:
   - PyObj models an object with an equality class (val) and a hashability flag;
     Python == corresponds to equality of val, and hash(x) raises TypeError
     exactly when x.hashable is false.
   - Fallible code returns Except Err; Err.typeError and Err.attributeError
     model the corresponding Python exception classes.
   - Generators are modelled by the list of elements they produce; an
     exception raised during production makes the whole forced result an
     error (the claims never depend on partially forced output). -/

namespace LambdaChainProof

/-- Python exception classes that the modelled code can raise. -/
inductive Err where
  | typeError
  | attributeError
deriving DecidableEq, Repr

/-- Model of a Python object as seen by unique and unique_by: `val` is its
equality class (x == y iff x.val = y.val) and `hashable` records whether
hash(x) succeeds.  Python requires hash to be compatible with ==, so a seen
set of hashable objects is modelled by the list of their vals. -/
structure PyObj where
  val : Nat
  hashable : Bool
deriving DecidableEq, Repr

/-- Embedding of the `hashable=True` branch of functions.unique, line 43:
`yield from {k: None for k in it}`.  Building the dict consumes the whole
source before anything is yielded; a non-hashable element raises TypeError
(so the forced result is an error), a repeated val keeps the first-occurring
object, and keys keep first-occurrence order (CPython dict semantics).
`seen` is the set of vals already inserted. -/
def uniqueDict (seen : List Nat) : List PyObj → Except Err (List PyObj)
  | [] => .ok []
  | x :: xs =>
    if x.hashable then
      if x.val ∈ seen then uniqueDict seen xs
      else Except.map (fun rest => x :: rest) (uniqueDict (x.val :: seen) xs)
    else .error .typeError

/-- Embedding of the `else` branch of functions.unique, lines 45-58: each
element is first tested against the set `seen_hashable`; if hashing raises
(element not hashable) the bare `except:` falls back to comparing by
equality against the list `seen_unhashable`.  `seenH` and `seenU` are the
vals retained in `seen_hashable` and `seen_unhashable` respectively. -/
def uniqueFallback (seenH seenU : List Nat) : List PyObj → List PyObj
  | [] => []
  | x :: xs =>
    if x.hashable then
      if x.val ∈ seenH then uniqueFallback seenH seenU xs
      else x :: uniqueFallback (x.val :: seenH) seenU xs
    else
      if x.val ∈ seenU then uniqueFallback seenH seenU xs
      else x :: uniqueFallback seenH (x.val :: seenU) xs

/-- Embedding of functions.unique(it, hashable), lines 41-58. -/
def unique (it : List PyObj) (hashable : Bool) : Except Err (List PyObj) :=
  if hashable then uniqueDict [] it
  else .ok (uniqueFallback [] [] it)

/-- Embedding of LambdaChain.unique(ordered), line 164: it forwards `ordered`
as the `hashable` argument of functions.unique. -/
def chainUnique (ordered : Bool) (it : List PyObj) : Except Err (List PyObj) :=
  unique it ordered

/-- Specification helper: first-occurrence deduplication by Python equality,
keeping the first-occurring object of each val and first-occurrence order.
`seen` is the set of vals regarded as already produced. -/
def firstOccByVal (seen : List Nat) : List PyObj → List PyObj
  | [] => []
  | x :: xs =>
    if x.val ∈ seen then firstOccByVal seen xs
    else x :: firstOccByVal (x.val :: seen) xs

/-- Embedding of the `hashable=True` branch of functions.unique_by,
lines 63-68: dedup is by `key v`, the first element with a novel key value
is yielded. -/
def uniqueByHashable (key : PyObj → Nat) (seen : List Nat) : List PyObj → List PyObj
  | [] => []
  | v :: vs =>
    if key v ∈ seen then uniqueByHashable key seen vs
    else v :: uniqueByHashable key (key v :: seen) vs

/-- Embedding of the `else` branch of functions.unique_by, lines 70-82.  Note
that the source tests `v not in uniques_hashable` (the element, not the key),
so this branch dedups by element; the computed key is unused here. -/
def uniqueByFallback (seenH seenU : List Nat) : List PyObj → List PyObj
  | [] => []
  | v :: vs =>
    if v.hashable then
      if v.val ∈ seenH then uniqueByFallback seenH seenU vs
      else v :: uniqueByFallback (v.val :: seenH) seenU vs
    else
      if v.val ∈ seenU then uniqueByFallback seenH seenU vs
      else v :: uniqueByFallback seenH (v.val :: seenU) vs

/-- Embedding of calling functions.unique_by, lines 61-82.  The function has
three required positional parameters (it, key, hashable); `none` models a
call site that omits `hashable`, which raises TypeError at call time
(generator functions validate their argument count when called). -/
def unique_by (it : List PyObj) (key : PyObj → Nat) : Option Bool → Except Err (List PyObj)
  | none => .error .typeError
  | some true => .ok (uniqueByHashable key [] it)
  | some false => .ok (uniqueByFallback [] [] it)

/-- Embedding of LambdaChain.unique_by(key), line 190: the source calls
`unique_by(self._it, key)` with only two of the three required arguments. -/
def chainUniqueBy (key : PyObj → Nat) (it : List PyObj) : Except Err (List PyObj) :=
  unique_by it key none

/-- The input of the docstring example of LambdaChain.unique_by
(lambda_chain.py line 181), as hashable objects. -/
def pyDocList : List PyObj :=
  [⟨3, true⟩, ⟨0, true⟩, ⟨5, true⟩, ⟨7, true⟩, ⟨0, true⟩, ⟨4, true⟩, ⟨3, true⟩, ⟨4, true⟩]

theorem uniqueDict_all_hashable :
    ∀ (s : List PyObj) (seen : List Nat), (∀ x ∈ s, x.hashable = true) →
      uniqueDict seen s = .ok (firstOccByVal seen s)
  | [], _, _ => rfl
  | x :: xs, seen, h => by
      have hx : x.hashable = true := h x (List.mem_cons_self x xs)
      have hxs : ∀ y ∈ xs, y.hashable = true := fun y hy => h y (List.mem_cons_of_mem x hy)
      by_cases hmem : x.val ∈ seen
      · simp [uniqueDict, firstOccByVal, hx, hmem,
          uniqueDict_all_hashable xs seen hxs]
      · simp [uniqueDict, firstOccByVal, hx, hmem,
          uniqueDict_all_hashable xs (x.val :: seen) hxs, Except.map]

theorem uniqueDict_unhashable_raises :
    ∀ (s : List PyObj) (seen : List Nat), (∃ x ∈ s, x.hashable = false) →
      uniqueDict seen s = .error .typeError
  | [], _, h => absurd h (by simp)
  | x :: xs, seen, h => by
      by_cases hx : x.hashable = true
      · have hxs : ∃ y ∈ xs, y.hashable = false := by
          rcases h with ⟨y, hy, hyh⟩
          rcases List.mem_cons.1 hy with rfl | hy'
          · exact absurd hx (by simp [hyh])
          · exact ⟨y, hy', hyh⟩
        by_cases hmem : x.val ∈ seen
        · simp [uniqueDict, hx, hmem, uniqueDict_unhashable_raises xs seen hxs]
        · simp [uniqueDict, hx, hmem,
            uniqueDict_unhashable_raises xs (x.val :: seen) hxs, Except.map]
      · simp [uniqueDict, hx]

theorem uniqueFallback_all_hashable :
    ∀ (s : List PyObj) (seenH seenU : List Nat), (∀ x ∈ s, x.hashable = true) →
      uniqueFallback seenH seenU s = firstOccByVal seenH s
  | [], _, _, _ => rfl
  | x :: xs, seenH, seenU, h => by
      have hx : x.hashable = true := h x (List.mem_cons_self x xs)
      have hxs : ∀ y ∈ xs, y.hashable = true := fun y hy => h y (List.mem_cons_of_mem x hy)
      by_cases hmem : x.val ∈ seenH
      · simp [uniqueFallback, firstOccByVal, hx, hmem,
          uniqueFallback_all_hashable xs seenH seenU hxs]
      · simp [uniqueFallback, firstOccByVal, hx, hmem,
          uniqueFallback_all_hashable xs (x.val :: seenH) seenU hxs]

theorem uniqueFallback_all_unhashable :
    ∀ (s : List PyObj) (seenH seenU : List Nat), (∀ x ∈ s, x.hashable = false) →
      uniqueFallback seenH seenU s = firstOccByVal seenU s
  | [], _, _, _ => rfl
  | x :: xs, seenH, seenU, h => by
      have hx : x.hashable = false := h x (List.mem_cons_self x xs)
      have hxs : ∀ y ∈ xs, y.hashable = false := fun y hy => h y (List.mem_cons_of_mem x hy)
      by_cases hmem : x.val ∈ seenU
      · simp [uniqueFallback, firstOccByVal, hx, hmem,
          uniqueFallback_all_unhashable xs seenH seenU hxs]
      · simp [uniqueFallback, firstOccByVal, hx, hmem,
          uniqueFallback_all_unhashable xs seenH (x.val :: seenU) hxs]

/-- Claim C3, counterexample: with ordered=true, a source holding one
non-hashable element makes unique raise TypeError when forced; there is no
equality fallback on this path, contradicting the claim that the element
would be yielded. -/
theorem unique_ordered_unhashable_counterexample :
    chainUnique true [⟨0, false⟩] = .error .typeError ∧
      (Except.error Err.typeError : Except Err (List PyObj)) ≠ .ok [⟨0, false⟩] :=
  ⟨rfl, fun h => Except.noConfusion h⟩

/-- Claim C3, amended: with ordered=true, unique yields each distinct element
exactly once in first-occurrence order when all elements are hashable, and
raises TypeError as soon as the source holds a non-hashable element.  The
degraded equality-only fallback exists only on the ordered=false path, which
also yields first occurrences (shown here for all-non-hashable sources). -/
theorem unique_ordered_first_occurrence (s : List PyObj) :
    ((∀ x ∈ s, x.hashable = true) → chainUnique true s = .ok (firstOccByVal [] s)) ∧
    ((∃ x ∈ s, x.hashable = false) → chainUnique true s = .error .typeError) ∧
    ((∀ x ∈ s, x.hashable = false) → chainUnique false s = .ok (firstOccByVal [] s)) := by
  refine ⟨fun h => ?_, fun h => ?_, fun h => ?_⟩
  · simpa [chainUnique, unique] using uniqueDict_all_hashable s [] h
  · simpa [chainUnique, unique] using uniqueDict_unhashable_raises s [] h
  · simp [chainUnique, unique, uniqueFallback_all_unhashable s [] [] h]

/-- Witness for unique_ordered_first_occurrence at concrete inputs. -/
theorem unique_ordered_first_occurrence_witness :
    chainUnique true [⟨3, true⟩, ⟨0, true⟩, ⟨3, true⟩] = .ok [⟨3, true⟩, ⟨0, true⟩] ∧
    chainUnique true [⟨1, true⟩, ⟨2, false⟩] = .error .typeError ∧
    chainUnique false [⟨3, false⟩, ⟨3, false⟩] = .ok [⟨3, false⟩] := by
  refine ⟨?_, ?_, ?_⟩
  · rw [(unique_ordered_first_occurrence [⟨3, true⟩, ⟨0, true⟩, ⟨3, true⟩]).1 (by decide)]
    rfl
  · exact (unique_ordered_first_occurrence [⟨1, true⟩, ⟨2, false⟩]).2.1
      ⟨⟨2, false⟩, by decide⟩
  · rw [(unique_ordered_first_occurrence [⟨3, false⟩, ⟨3, false⟩]).2.2 (by decide)]
    rfl

/-- Claim C10: on a source whose elements are all hashable, unique with
ordered=false yields exactly the same ordered sequence as unique with
ordered=true, namely each distinct element once in first-occurrence order. -/
theorem unique_unordered_eq_ordered (s : List PyObj)
    (h : ∀ x ∈ s, x.hashable = true) :
    chainUnique false s = chainUnique true s ∧
    chainUnique false s = .ok (firstOccByVal [] s) := by
  have h1 : chainUnique false s = .ok (firstOccByVal [] s) := by
    simp [chainUnique, unique, uniqueFallback_all_hashable s [] [] h]
  have h2 : chainUnique true s = .ok (firstOccByVal [] s) := by
    simpa [chainUnique, unique] using uniqueDict_all_hashable s [] h
  exact ⟨h1.trans h2.symm, h1⟩

/-- Witness for unique_unordered_eq_ordered at a concrete input. -/
theorem unique_unordered_eq_ordered_witness :
    chainUnique false pyDocList = chainUnique true pyDocList ∧
    chainUnique false pyDocList = .ok [⟨3, true⟩, ⟨0, true⟩, ⟨5, true⟩, ⟨7, true⟩, ⟨4, true⟩] := by
  have h := unique_unordered_eq_ordered pyDocList (by decide)
  exact ⟨h.1, by rw [h.2]; rfl⟩

/-- Claim C1, code-bug evidence: LambdaChain.unique_by calls the
three-required-parameter generator function unique_by with only two
arguments, so every invocation raises TypeError instead of producing a
deduplicated chain; the module-level unique_by (hashable=True) does realize
the claimed behaviour, as evaluated on the docstring example. -/
theorem chain_unique_by_always_raises :
    (∀ (key : PyObj → Nat) (s : List PyObj), chainUniqueBy key s = .error .typeError) ∧
    unique_by pyDocList (fun x => x.val % 3) (some true) =
      .ok [⟨3, true⟩, ⟨5, true⟩, ⟨7, true⟩] :=
  ⟨fun _ _ => rfl, rfl⟩

/-- First-order universe of Python values used by fold, foldc, curry and
uncurry: `base` is a non-callable object, `call n g` a native callable whose
declared arity (len(signature(f).parameters)) is n and whose body g maps the
positional argument list to a result, and `cur` a single-parameter closure
as produced by curry.  Arguments are restricted to base values, which covers
every execution path the claims quantify over. -/
inductive PyV : Type where
  | base : Nat → PyV
  | call : Nat → (List Nat → Nat) → PyV
  | cur : (Nat → Except Err PyV) → PyV

/-- Python call with one positional argument: non-callables raise TypeError,
as does a native callable whose declared arity is not 1. -/
def call1 : PyV → Nat → Except Err PyV
  | .base _, _ => .error .typeError
  | .call 1 g, a => .ok (.base (g [a]))
  | .call _ _, _ => .error .typeError
  | .cur k, a => k a

/-- Python call with two positional arguments (as reduce performs on the
accumulating function): only a declared-arity-2 native callable accepts it. -/
def call2 : PyV → Nat → Nat → Except Err Nat
  | .call 2 g, a, b => .ok (g [a, b])
  | _, _, _ => .error .typeError

/-- Embedding of utils.assert_callable, lines 8-22: TypeError iff the
argument is not callable. -/
def assert_callable : PyV → Except Err Unit
  | .base _ => .error .typeError
  | _ => .ok ()

/-- Embedding of functools.reduce over a binary function: each step pulls
one element from the source and only then calls f on (accumulator, element).
The second component counts the elements pulled from the source. -/
def reduceCount (f : PyV) : List Nat → Nat → Nat → Except Err Nat × Nat
  | [], u, consumed => (.ok u, consumed)
  | x :: xs, u, consumed =>
    match call2 f u x with
    | .error e => (.error e, consumed + 1)
    | .ok b => reduceCount f xs b (consumed + 1)

/-- Embedding of functions.fold, lines 14-15: a bare reduce, with no
callability check of its own. -/
def fold (f : PyV) (it : List Nat) (initial : Nat) : Except Err Nat × Nat :=
  reduceCount f it initial 0

/-- Embedding of LambdaChain.fold, lines 112-113: assert_callable runs
before functions.fold, so a non-callable f raises before any element is
consumed. -/
def chainFold (f : PyV) (it : List Nat) (initial : Nat) : Except Err Nat × Nat :=
  match assert_callable f with
  | .error e => (.error e, 0)
  | .ok _ => fold f it initial

/-- Embedding of the inner recursive_curry of curry, lines 384-392: with
more than one argument left it binds one more via partial, with exactly one
left it calls the partially applied base function, and with none left the
single-argument call would itself raise TypeError (unreachable from curry). -/
def recursive_curry (g : List Nat → Nat) : Nat → PyV
  | 0 => .cur (fun _ => .error .typeError)
  | 1 => .cur (fun arg => .ok (.base (g [arg])))
  | n + 2 => .cur (fun arg => .ok (recursive_curry (fun args => g (arg :: args)) (n + 1)))

/-- Embedding of curry, lines 383-402: inspect the declared arity (TypeError
on a non-callable), return f unchanged at arity 0, otherwise the chain of
single-argument closures. -/
def curry : PyV → Except Err PyV
  | .base _ => .error .typeError
  | .call 0 g => .ok (.call 0 g)
  | .call (n + 1) g => .ok (recursive_curry g (n + 1))
  | .cur k => .ok (.cur (fun a => k a))

/-- Declared arity of a value, as len(signature(func).parameters) computes
it in uncurry; signature raises TypeError on a non-callable. -/
def pyArity : PyV → Except Err Nat
  | .base _ => .error .typeError
  | .call n _ => .ok n
  | .cur _ => .ok 1

/-- Result of uncurry: either the input returned unchanged (the declared
arity 0 case) or the variadic closure uncurried capturing the input. -/
inductive UncurryRet where
  | unchanged : PyV → UncurryRet
  | variadic : PyV → UncurryRet

/-- Embedding of uncurry, lines 319-380: at declared arity 0 the input is
returned as is (not invoked), otherwise the variadic closure is returned. -/
def uncurry (f : PyV) : Except Err UncurryRet :=
  match pyArity f with
  | .error e => .error e
  | .ok 0 => .ok (.unchanged f)
  | .ok (_ + 1) => .ok (.variadic f)

/-- Behaviour of the value returned by uncurry when reduce inside foldc
calls it with two arguments: uncurried(*args) folds the argument list by
single application, while an unchanged arity-0 function is called directly
with both arguments (raising TypeError for the wrong argument count). -/
def uncurryApply2 : UncurryRet → Nat → Nat → Except Err PyV
  | .unchanged f, a, b => Except.map PyV.base (call2 f a b)
  | .variadic f, a, b =>
    match call1 f a with
    | .error e => .error e
    | .ok r => call1 r b

/-- Embedding of the reduce inside functions.foldc, lines 18-22, driven by a
binary operation that may raise.  An accumulator that is not a base value
cannot be passed on inside this first-order universe; no execution path in
this development reaches that case. -/
def foldcReduce (bin : Nat → Nat → Except Err PyV) : List Nat → Nat → Except Err Nat
  | [], u => .ok u
  | x :: xs, u =>
    match bin u x with
    | .error e => .error e
    | .ok (.base b) => foldcReduce bin xs b
    | .ok _ => .error .typeError

/-- Embedding of LambdaChain.foldc, lines 137-138: assert_callable, then
functions.foldc(uncurry(f), it), returning the inner function awaiting the
initial value. -/
def chainFoldc (f : PyV) (it : List Nat) : Except Err (Nat → Except Err Nat) :=
  match assert_callable f with
  | .error e => .error e
  | .ok _ =>
    match uncurry f with
    | .error e => .error e
    | .ok u => .ok (fun v0 => foldcReduce (uncurryApply2 u) it v0)

/-- The composite the claim compares against fold: foldc(curry(f))(v0). -/
def foldcOfCurry (f : PyV) (it : List Nat) (v0 : Nat) : Except Err Nat :=
  match curry f with
  | .error e => .error e
  | .ok c =>
    match chainFoldc c it with
    | .error e => .error e
    | .ok run => run v0

/-- Claim C2, counterexample: the module-level fold(f, source, initial) with
a non-callable f and an empty source returns the initial value without
raising TypeError (functools.reduce never invokes f on an empty source). -/
theorem fold_noncallable_empty_counterexample :
    fold (.base 42) [] 7 = (.ok 7, 0) ∧
      (fold (.base 42) [] 7).1 ≠ .error .typeError :=
  ⟨rfl, fun h => Except.noConfusion h⟩

/-- Claim C2, amended: the chain method fold checks callability eagerly, so
a non-callable f raises TypeError with zero elements consumed, for every
source including the empty one; the module-level fold performs no eager
check: on an empty source it returns the initial value, and on a non-empty
source the TypeError surfaces only at the first application, after one
element has been consumed. -/
theorem fold_noncallable_eager_vs_lazy (c : Nat) (s : List Nat) (v0 : Nat) :
    chainFold (.base c) s v0 = (.error .typeError, 0) ∧
    fold (.base c) [] v0 = (.ok v0, 0) ∧
    (∀ x xs, fold (.base c) (x :: xs) v0 = (.error .typeError, 1)) :=
  ⟨rfl, rfl, fun _ _ => rfl⟩

theorem uncurryApply2_curry2 (g : List Nat → Nat) (a b : Nat) :
    uncurryApply2 (.variadic (recursive_curry g 2)) a b = .ok (.base (g [a, b])) := rfl

theorem foldcReduce_curry2 (g : List Nat → Nat) :
    ∀ (s : List Nat) (v0 : Nat),
      foldcReduce (uncurryApply2 (.variadic (recursive_curry g 2))) s v0 =
        .ok (s.foldl (fun a b => g [a, b]) v0)
  | [], _ => rfl
  | x :: xs, v0 => by
      have h := uncurryApply2_curry2 g v0 x
      simp [foldcReduce, h, foldcReduce_curry2 g xs]

theorem reduceCount_call2 (g : List Nat → Nat) :
    ∀ (s : List Nat) (v0 n : Nat),
      reduceCount (.call 2 g) s v0 n =
        (.ok (s.foldl (fun a b => g [a, b]) v0), n + s.length)
  | [], _, _ => rfl
  | x :: xs, v0, n => by
      simp [reduceCount, call2, reduceCount_call2 g xs (g [v0, x]) (n + 1)]
      omega

/-- Claim C5: for every binary function f of declared arity 2, every finite
source and every initial value, fold(f, s, v0) equals foldc(curry(f))(v0),
and both equal the direct eager left fold of f over s. -/
theorem fold_eq_foldc_curry (g : List Nat → Nat) (s : List Nat) (v0 : Nat) :
    foldcOfCurry (.call 2 g) s v0 = (fold (.call 2 g) s v0).1 ∧
    (fold (.call 2 g) s v0).1 = .ok (s.foldl (fun a b => g [a, b]) v0) := by
  have h1 : foldcOfCurry (.call 2 g) s v0 =
      foldcReduce (uncurryApply2 (.variadic (recursive_curry g 2))) s v0 := rfl
  have h2 : (fold (.call 2 g) s v0).1 = .ok (s.foldl (fun a b => g [a, b]) v0) := by
    simp [fold, reduceCount_call2]
  exact ⟨by rw [h1, foldcReduce_curry2, h2], h2⟩

/-- Claim C6: for every callable of declared arity 0, curry returns it
unchanged and uncurry returns it unchanged as well; the returned value is
the function object itself, not the result of invoking it with no
arguments. -/
theorem curry_uncurry_zero_arity (g : List Nat → Nat) :
    curry (.call 0 g) = .ok (.call 0 g) ∧
    uncurry (.call 0 g) = .ok (.unchanged (.call 0 g)) ∧
    UncurryRet.unchanged (PyV.call 0 g) ≠ UncurryRet.unchanged (PyV.base (g [])) := by
  refine ⟨rfl, rfl, fun h => ?_⟩
  injection h with h2
  exact PyV.noConfusion h2

/-- Model of a value passed to LambdaChain.apply: `nameAttr` is its __name__
attribute (none when the object has no such attribute, as for numbers or
lists), and `body` is the derived lazy sequence the object would produce
from a source once its rebindable source is replaced (meaningful only for
actual generator expressions). -/
structure GenexprArg (α β : Type) where
  nameAttr : Option String
  body : List α → List β

/-- Embedding of utils.assert_genexpr, lines 25-33: reading g.__name__ on an
object without that attribute raises AttributeError; otherwise a name other
than the genexpr marker raises TypeError. -/
def assert_genexpr {α β : Type} (g : GenexprArg α β) : Except Err Unit :=
  match g.nameAttr with
  | none => .error .attributeError
  | some n => if n = "<genexpr>" then .ok () else .error .typeError

/-- Embedding of LambdaChain.apply, lines 296-298: assert_genexpr first,
then rebind the argument onto the current source and wrap it; the result is
the forced output of the rebound generator.  No element of the source is
consumed before assert_genexpr has passed. -/
def chainApply {α β : Type} (g : GenexprArg α β) (it : List α) : Except Err (List β) :=
  match assert_genexpr g with
  | .error e => .error e
  | .ok _ => .ok (g.body it)

/-- Claim C4, counterexample: a non-function value such as a number has no
__name__ attribute, so apply raises AttributeError, not the claimed
TypeError. -/
theorem apply_non_function_counterexample :
    chainApply (⟨none, fun _ => []⟩ : GenexprArg Nat Nat) [0] = .error .attributeError ∧
      Err.attributeError ≠ Err.typeError :=
  ⟨rfl, fun h => Err.noConfusion h⟩

/-- Claim C4, amended: apply(g) raises TypeError, eagerly and independently
of the source (so before any element is consumed), for every argument whose
__name__ attribute exists and differs from the genexpr marker — ordinary
functions in particular; for a value without a __name__ attribute it raises
AttributeError instead, equally eagerly. -/
theorem apply_rejects_non_genexpr {α β : Type} (t : List α → List β)
    (it : List α) (n : String) (hn : n ≠ "<genexpr>") :
    chainApply ⟨some n, t⟩ it = .error .typeError ∧
    chainApply ⟨none, t⟩ it = .error .attributeError := by
  constructor
  · simp [chainApply, assert_genexpr, hn]
  · rfl

/-- Witness for apply_rejects_non_genexpr at a concrete input. -/
theorem apply_rejects_non_genexpr_witness :
    chainApply (⟨some "f", fun l => l⟩ : GenexprArg Nat Nat) [] = .error .typeError ∧
    chainApply (⟨none, fun l => l⟩ : GenexprArg Nat Nat) [] = .error .attributeError :=
  apply_rejects_non_genexpr (fun l => l) [] "f" (by decide)

/-- Model of a sequence source as the chain and its ForceProxy see it: a
generator is a single-pass iterator holding the elements it has yet to
produce, while a list can be iterated from the start each time. -/
inductive PySource (α : Type) where
  | gen : List α → PySource α
  | lst : List α → PySource α

/-- Forcing with the default materializer (list(it), ForceProxy lines
310-316): a generator yields its remaining elements and is left exhausted; a
list yields a fresh copy and is unchanged. -/
def forceList {α : Type} : PySource α → List α × PySource α
  | .gen xs => (xs, .gen [])
  | .lst xs => (xs, .lst xs)

/-- Embedding of LambdaChain.persist, line 307: materialize the current
source into a list and wrap it in a new chain; the original source is
consumed in the process. -/
def persist {α : Type} (s : PySource α) : PySource α × PySource α :=
  let fs := forceList s
  (.lst fs.1, fs.2)

/-- Claim C9: persisting a finite single-pass source and forcing the
resulting chain twice returns the same ordered sequence both times, whereas
forcing a non-persisted chain a second time, after its source was fully
consumed by the first force, yields an empty result. -/
theorem persist_force_twice {α : Type} (xs : List α) :
    (forceList (persist (.gen xs)).1).1 = xs ∧
    (forceList (forceList (persist (.gen xs)).1).2).1 = xs ∧
    (forceList (.gen xs)).1 = xs ∧
    (forceList (forceList (.gen xs)).2).1 = ([] : List α) :=
  ⟨rfl, rfl, rfl, rfl⟩

/-- Embedding of LambdaChain.filter, lines 64-65: keep elements whose
predicate result is truthy (Bool here stands for Python truthiness of the
predicate's return value). -/
def chainFilter {α : Type} (p : α → Bool) (s : List α) : List α := s.filter p

/-- Embedding of LambdaChain.reject, lines 85-86: itertools.filterfalse,
keeping elements whose predicate result is falsy. -/
def chainReject {α : Type} (p : α → Bool) (s : List α) : List α :=
  s.filter (fun a => !p a)

/-- Claim C8: for every finite source and predicate, filter(p) and reject(p)
partition the source exactly: their combined occurrence counts reproduce the
source's, every element of the source lies in exactly one of the two
results, both preserve relative order as sublists of the source, and their
concatenation is a permutation of the source. -/
theorem filter_reject_partition {α : Type} [DecidableEq α] (p : α → Bool) (s : List α) :
    (∀ a, (chainFilter p s).count a + (chainReject p s).count a = s.count a) ∧
    (chainFilter p s ++ chainReject p s).Perm s ∧
    (chainFilter p s).Sublist s ∧ (chainReject p s).Sublist s ∧
    (∀ a ∈ s, (a ∈ chainFilter p s ∧ a ∉ chainReject p s) ∨
      (a ∉ chainFilter p s ∧ a ∈ chainReject p s)) := by
  have hperm : (chainFilter p s ++ chainReject p s).Perm s := List.filter_append_perm p s
  refine ⟨fun a => ?_, hperm, List.filter_sublist s, List.filter_sublist s, fun a ha => ?_⟩
  · have hc := hperm.count_eq a
    simpa [List.count_append] using hc
  · by_cases hpa : p a = true
    · refine Or.inl ⟨List.mem_filter.2 ⟨ha, hpa⟩, fun hmem => ?_⟩
      have hb := (List.mem_filter.1 hmem).2
      simp [hpa] at hb
    · refine Or.inr ⟨fun hmem => ?_, List.mem_filter.2 ⟨ha, by simp [hpa]⟩⟩
      exact hpa (List.mem_filter.1 hmem).2

/-- Witness for filter_reject_partition at a concrete predicate and source. -/
theorem filter_reject_partition_witness :
    (chainFilter (fun n => decide (n % 2 = 0)) [1, 2, 3] ++
      chainReject (fun n => decide (n % 2 = 0)) [1, 2, 3]).Perm [1, 2, 3] ∧
    ((1 ∈ chainFilter (fun n => decide (n % 2 = 0)) [1, 2, 3] ∧
        1 ∉ chainReject (fun n => decide (n % 2 = 0)) [1, 2, 3]) ∨
      (1 ∉ chainFilter (fun n => decide (n % 2 = 0)) [1, 2, 3] ∧
        1 ∈ chainReject (fun n => decide (n % 2 = 0)) [1, 2, 3])) := by
  have h := filter_reject_partition (fun n => decide (n % 2 = 0)) [1, 2, 3]
  exact ⟨h.2.1, h.2.2.2.2 1 (by decide)⟩

/-- Embedding of one loop step of the combine=True branch of
functions.groupby_, lines 87-89: d[key(v)].append(v) on an insertion-ordered
defaultdict(list), modelled as an association list whose entry order is key
insertion order. -/
def addToGroup {κ α : Type} [DecidableEq κ] :
    List (κ × List α) → κ → α → List (κ × List α)
  | [], k, v => [(k, [v])]
  | (k', vs) :: rest, k, v =>
    if k' = k then (k', vs ++ [v]) :: rest else (k', vs) :: addToGroup rest k v

/-- Embedding of the combine=True branch of functions.groupby_, lines 86-91:
build the dict over the whole source, then yield its items. -/
def groupbyCombine {κ α : Type} [DecidableEq κ] (key : α → κ) (it : List α) :
    List (κ × List α) :=
  it.foldl (fun d v => addToGroup d (key v) v) []

/-- Embedding of the combine=False branch, line 94: itertools.groupby yields
one pair per run of adjacent equal-key elements. -/
def groupRuns {κ α : Type} [DecidableEq κ] (key : α → κ) : List α → List (κ × List α)
  | [] => []
  | x :: xs =>
    match groupRuns key xs with
    | [] => [(key x, [x])]
    | (k, g) :: rest =>
      if key x = k then (k, x :: g) :: rest else (key x, [x]) :: (k, g) :: rest

/-- Embedding of functions.groupby_, lines 85-94. -/
def groupby_ {κ α : Type} [DecidableEq κ] (key : α → κ) (combine : Bool)
    (it : List α) : List (κ × List α) :=
  if combine then groupbyCombine key it else groupRuns key it

/-- Specification helper: first-occurrence deduplication of a key list;
`seen` holds the keys regarded as already produced. -/
def firstOccKeysAux {κ : Type} [DecidableEq κ] (seen : List κ) : List κ → List κ
  | [] => []
  | k :: ks =>
    if k ∈ seen then firstOccKeysAux seen ks else k :: firstOccKeysAux (k :: seen) ks

/-- Specification helper: the distinct keys of a list in first-occurrence
order. -/
def firstOccKeys {κ : Type} [DecidableEq κ] (l : List κ) : List κ :=
  firstOccKeysAux [] l

theorem firstOccKeysAux_cons {κ : Type} [DecidableEq κ] (seen : List κ) (x : κ)
    (l : List κ) :
    firstOccKeysAux seen (x :: l) =
      if x ∈ seen then firstOccKeysAux seen l else x :: firstOccKeysAux (x :: seen) l := rfl

theorem mem_firstOccKeysAux {κ : Type} [DecidableEq κ] (a : κ) :
    ∀ (l seen : List κ), a ∈ firstOccKeysAux seen l ↔ a ∈ l ∧ a ∉ seen
  | [], seen => by simp [firstOccKeysAux]
  | x :: xs, seen => by
      by_cases hx : x ∈ seen
      · rw [firstOccKeysAux_cons, if_pos hx, mem_firstOccKeysAux a xs seen]
        constructor
        · rintro ⟨h1, h2⟩
          exact ⟨List.mem_cons_of_mem x h1, h2⟩
        · rintro ⟨h1, h2⟩
          rcases List.mem_cons.1 h1 with rfl | h1'
          · exact absurd hx h2
          · exact ⟨h1', h2⟩
      · rw [firstOccKeysAux_cons, if_neg hx]
        constructor
        · intro h
          rcases List.mem_cons.1 h with rfl | h'
          · exact ⟨List.mem_cons_self a xs, hx⟩
          · have hr := (mem_firstOccKeysAux a xs (x :: seen)).1 h'
            exact ⟨List.mem_cons_of_mem x hr.1, fun hs => hr.2 (List.mem_cons_of_mem x hs)⟩
        · rintro ⟨h1, h2⟩
          rcases List.mem_cons.1 h1 with rfl | h1'
          · exact List.mem_cons_self a _
          · by_cases hax : a = x
            · subst hax
              exact List.mem_cons_self a _
            · refine List.mem_cons_of_mem x ((mem_firstOccKeysAux a xs (x :: seen)).2
                ⟨h1', fun hs => ?_⟩)
              rcases List.mem_cons.1 hs with h | h
              · exact hax h
              · exact h2 h

theorem nodup_firstOccKeysAux {κ : Type} [DecidableEq κ] :
    ∀ (l seen : List κ), (firstOccKeysAux seen l).Nodup
  | [], _ => List.nodup_nil
  | x :: xs, seen => by
      by_cases hx : x ∈ seen
      · rw [firstOccKeysAux_cons, if_pos hx]
        exact nodup_firstOccKeysAux xs seen
      · rw [firstOccKeysAux_cons, if_neg hx]
        refine List.nodup_cons.2 ⟨fun hmem => ?_, nodup_firstOccKeysAux xs (x :: seen)⟩
        exact ((mem_firstOccKeysAux x xs (x :: seen)).1 hmem).2 (List.mem_cons_self x seen)

theorem mem_firstOccKeys {κ : Type} [DecidableEq κ] (a : κ) (l : List κ) :
    a ∈ firstOccKeys l ↔ a ∈ l := by
  rw [firstOccKeys, mem_firstOccKeysAux]
  simp

theorem nodup_firstOccKeys {κ : Type} [DecidableEq κ] (l : List κ) :
    (firstOccKeys l).Nodup :=
  nodup_firstOccKeysAux l []

theorem firstOccKeysAux_snoc {κ : Type} [DecidableEq κ] (k : κ) :
    ∀ (l seen : List κ),
      firstOccKeysAux seen (l ++ [k]) =
        if k ∈ seen ∨ k ∈ l then firstOccKeysAux seen l
        else firstOccKeysAux seen l ++ [k]
  | [], seen => by
      by_cases h : k ∈ seen <;> simp [firstOccKeysAux, h]
  | x :: xs, seen => by
      by_cases hx : x ∈ seen
      · rw [List.cons_append, firstOccKeysAux_cons, if_pos hx,
          firstOccKeysAux_snoc k xs seen, firstOccKeysAux_cons, if_pos hx]
        have hiff : (k ∈ seen ∨ k ∈ xs) ↔ (k ∈ seen ∨ k ∈ x :: xs) := by
          constructor
          · rintro (h | h)
            · exact Or.inl h
            · exact Or.inr (List.mem_cons_of_mem x h)
          · rintro (h | h)
            · exact Or.inl h
            · rcases List.mem_cons.1 h with rfl | h'
              · exact Or.inl hx
              · exact Or.inr h'
        by_cases hk : k ∈ seen ∨ k ∈ x :: xs
        · rw [if_pos (hiff.2 hk), if_pos hk]
        · rw [if_neg (fun hc => hk (hiff.1 hc)), if_neg hk]
      · rw [List.cons_append, firstOccKeysAux_cons, if_neg hx,
          firstOccKeysAux_snoc k xs (x :: seen), firstOccKeysAux_cons, if_neg hx]
        have hiff : (k ∈ x :: seen ∨ k ∈ xs) ↔ (k ∈ seen ∨ k ∈ x :: xs) := by
          constructor
          · rintro (h | h)
            · rcases List.mem_cons.1 h with he | h'
              · exact Or.inr (by rw [he]; exact List.mem_cons_self x xs)
              · exact Or.inl h'
            · exact Or.inr (List.mem_cons_of_mem x h)
          · rintro (h | h)
            · exact Or.inl (List.mem_cons_of_mem x h)
            · rcases List.mem_cons.1 h with he | h'
              · exact Or.inl (by rw [he]; exact List.mem_cons_self x seen)
              · exact Or.inr h'
        by_cases hk : k ∈ seen ∨ k ∈ x :: xs
        · rw [if_pos (hiff.2 hk), if_pos hk]
        · rw [if_neg (fun hc => hk (hiff.1 hc)), if_neg hk]
          simp

theorem firstOccKeys_snoc {κ : Type} [DecidableEq κ] (l : List κ) (k : κ) :
    firstOccKeys (l ++ [k]) =
      if k ∈ l then firstOccKeys l else firstOccKeys l ++ [k] := by
  rw [firstOccKeys, firstOccKeysAux_snoc]
  simp [firstOccKeys]

theorem addToGroup_new {κ α : Type} [DecidableEq κ] (k : κ) (v : α) :
    ∀ (d : List (κ × List α)), k ∉ d.map Prod.fst →
      addToGroup d k v = d ++ [(k, [v])]
  | [], _ => rfl
  | (k', vs) :: rest, h => by
      have hk : ¬(k' = k) := fun he => h (by simp [he])
      simp [addToGroup, hk, addToGroup_new k v rest (fun hm => h (by simp [hm]))]

theorem map_append_if_eq_self {κ α : Type} [DecidableEq κ] (k : κ) (v : α) :
    ∀ (d : List (κ × List α)), k ∉ d.map Prod.fst →
      d.map (fun p => if p.1 = k then (p.1, p.2 ++ [v]) else p) = d
  | [], _ => rfl
  | (k', vs) :: rest, h => by
      have hk : ¬(k' = k) := fun he => h (by simp [he])
      simp [hk, map_append_if_eq_self k v rest (fun hm => h (by simp [hm]))]

theorem addToGroup_mem {κ α : Type} [DecidableEq κ] (k : κ) (v : α) :
    ∀ (d : List (κ × List α)), (d.map Prod.fst).Nodup → k ∈ d.map Prod.fst →
      addToGroup d k v = d.map (fun p => if p.1 = k then (p.1, p.2 ++ [v]) else p)
  | [], _, h => absurd h (by simp)
  | (k', vs) :: rest, hnd, h => by
      rw [List.map_cons] at hnd h
      by_cases hk : k' = k
      · subst hk
        have hk' : k' ∉ rest.map Prod.fst := (List.nodup_cons.1 hnd).1
        simp [addToGroup, map_append_if_eq_self k' v rest hk']
      · have h' : k ∈ rest.map Prod.fst := by
          rcases List.mem_cons.1 h with he | hm
          · exact absurd he.symm hk
          · exact hm
        have hnd' : (rest.map Prod.fst).Nodup := (List.nodup_cons.1 hnd).2
        simp [addToGroup, hk, addToGroup_mem k v rest hnd' h']

theorem groupbyCombine_snoc {κ α : Type} [DecidableEq κ] (key : α → κ)
    (s : List α) (v : α) :
    groupbyCombine key (s ++ [v]) = addToGroup (groupbyCombine key s) (key v) v := by
  simp [groupbyCombine, List.foldl_append]

theorem filter_key_snoc {κ α : Type} [DecidableEq κ] (key : α → κ) (s : List α)
    (v : α) (k : κ) :
    (s ++ [v]).filter (fun w => key w = k) =
      s.filter (fun w => key w = k) ++ if key v = k then [v] else [] := by
  rw [List.filter_append]
  congr 1
  by_cases h : key v = k <;> simp [h]

theorem filter_key_eq_nil {κ α : Type} [DecidableEq κ] (key : α → κ) (s : List α)
    (k : κ) (h : k ∉ s.map key) : s.filter (fun w => key w = k) = [] := by
  induction s with
  | nil => rfl
  | cons x xs ih =>
      have hx : ¬(key x = k) := fun hk => h (by simp [List.map_cons, hk])
      have hxs : k ∉ xs.map key :=
        fun hk => h (by rw [List.map_cons]; exact List.mem_cons_of_mem _ hk)
      simp [List.filter_cons, hx, ih hxs]

theorem groupbyCombine_eq {κ α : Type} [DecidableEq κ] (key : α → κ) (s : List α) :
    groupbyCombine key s =
      (firstOccKeys (s.map key)).map (fun k => (k, s.filter (fun w => key w = k))) := by
  induction s using List.reverseRecOn with
  | nil => rfl
  | append_singleton s v ih =>
      have hfst : ((firstOccKeys (s.map key)).map
          (fun k => (k, s.filter (fun w => key w = k)))).map Prod.fst =
          firstOccKeys (s.map key) := by
        simp [List.map_map, Function.comp_def]
      rw [groupbyCombine_snoc, ih]
      by_cases hmem : key v ∈ s.map key
      · have hK : key v ∈ firstOccKeys (s.map key) := (mem_firstOccKeys _ _).2 hmem
        rw [addToGroup_mem (key v) v _
          (by rw [hfst]; exact nodup_firstOccKeys _) (by rw [hfst]; exact hK)]
        have hkeys : firstOccKeys ((s ++ [v]).map key) = firstOccKeys (s.map key) := by
          rw [List.map_append, List.map_singleton, firstOccKeys_snoc, if_pos hmem]
        rw [hkeys, List.map_map]
        apply List.map_congr_left
        intro k hk
        by_cases he : k = key v
        · subst he
          simp [Function.comp, filter_key_snoc]
        · have hne : ¬(key v = k) := fun hc => he hc.symm
          simp [Function.comp, he, filter_key_snoc, hne]
      · have hK : key v ∉ firstOccKeys (s.map key) :=
          fun hc => hmem ((mem_firstOccKeys _ _).1 hc)
        rw [addToGroup_new (key v) v _ (by rw [hfst]; exact hK)]
        have hkeys : firstOccKeys ((s ++ [v]).map key) =
            firstOccKeys (s.map key) ++ [key v] := by
          rw [List.map_append, List.map_singleton, firstOccKeys_snoc, if_neg hmem]
        rw [hkeys, List.map_append]
        congr 1
        · apply List.map_congr_left
          intro k hk
          have hk' : k ∈ s.map key := (mem_firstOccKeys _ _).1 hk
          have hne : ¬(key v = k) := fun he => hmem (he ▸ hk')
          rw [filter_key_snoc, if_neg hne]
          simp
        · simp [filter_key_snoc, filter_key_eq_nil key s (key v) hmem]

theorem count_filter_key {κ α : Type} [DecidableEq κ] [DecidableEq α]
    (key : α → κ) (a : α) (k : κ) (s : List α) :
    (s.filter (fun w => key w = k)).count a = if key a = k then s.count a else 0 := by
  by_cases h : key a = k
  · rw [if_pos h]
    exact List.count_filter (by simpa using h)
  · rw [if_neg h, List.count_eq_zero]
    intro hmem
    exact h (by simpa using (List.mem_filter.1 hmem).2)

theorem sum_count_filter_key {κ α : Type} [DecidableEq κ] [DecidableEq α]
    (key : α → κ) (a : α) (s : List α) :
    ∀ (K : List κ), K.Nodup →
      (K.map (fun k => (s.filter (fun w => key w = k)).count a)).sum =
        if key a ∈ K then s.count a else 0
  | [], _ => by simp
  | k :: K, hnd => by
      rw [List.map_cons, List.sum_cons,
        sum_count_filter_key key a s K (List.nodup_cons.1 hnd).2, count_filter_key]
      by_cases he : key a = k
      · have hk : key a ∉ K := by
          rw [he]
          exact (List.nodup_cons.1 hnd).1
        rw [if_pos he, if_neg hk, if_pos (by rw [he]; exact List.mem_cons_self k K),
          Nat.add_zero]
      · rw [if_neg he]
        have hiff : (key a ∈ k :: K) ↔ key a ∈ K := by
          rw [List.mem_cons]
          exact or_iff_right he
        by_cases hm : key a ∈ K
        · rw [if_pos hm, if_pos (hiff.2 hm), Nat.zero_add]
        · rw [if_neg hm, if_neg (fun hc => hm (hiff.1 hc))]

theorem groupbyCombine_members_perm {κ α : Type} [DecidableEq κ] [DecidableEq α]
    (key : α → κ) (s : List α) :
    ((groupbyCombine key s).map Prod.snd).flatten.Perm s := by
  rw [groupbyCombine_eq, List.perm_iff_count]
  intro a
  rw [List.count_flatten]
  simp only [List.map_map, Function.comp_def]
  rw [sum_count_filter_key key a s _ (nodup_firstOccKeys _)]
  by_cases ha : a ∈ s
  · rw [if_pos ((mem_firstOccKeys _ _).2 (List.mem_map_of_mem key ha))]
  · rw [List.count_eq_zero.2 ha]
    simp

/-- Claim C7: groupby with combine=true yields the association of each
distinct key, in first-occurrence order, with the list of all source
elements of that key in source order; consequently the multiset union of
the group member lists is a permutation of the source, the keys are
pairwise distinct (every element's key maps to exactly one group), and
every source element's key owns a group. -/
theorem groupby_combine_partitions {κ α : Type} [DecidableEq κ] [DecidableEq α]
    (key : α → κ) (s : List α) :
    groupby_ key true s =
      (firstOccKeys (s.map key)).map (fun k => (k, s.filter (fun w => key w = k))) ∧
    ((groupby_ key true s).map Prod.snd).flatten.Perm s ∧
    ((groupby_ key true s).map Prod.fst).Nodup ∧
    (∀ v ∈ s, key v ∈ (groupby_ key true s).map Prod.fst) := by
  have hg : groupby_ key true s = groupbyCombine key s := rfl
  have hfst : (groupbyCombine key s).map Prod.fst = firstOccKeys (s.map key) := by
    rw [groupbyCombine_eq]
    simp [List.map_map, Function.comp_def]
  refine ⟨?_, ?_, ?_, ?_⟩
  · rw [hg]
    exact groupbyCombine_eq key s
  · rw [hg]
    exact groupbyCombine_members_perm key s
  · rw [hg, hfst]
    exact nodup_firstOccKeys _
  · intro v hv
    rw [hg, hfst]
    exact (mem_firstOccKeys _ _).2 (List.mem_map_of_mem key hv)

/-- Witness for groupby_combine_partitions at the docstring's example. -/
theorem groupby_combine_partitions_witness :
    groupby_ (fun n : Nat => n % 2) true [1, 3, 2, 2, 5, 3, 4, 6] =
      [(1, [1, 3, 5, 3]), (0, [2, 2, 4, 6])] ∧
    2 % 2 ∈ (groupby_ (fun n : Nat => n % 2) true [1, 3, 2, 2, 5, 3, 4, 6]).map Prod.fst := by
  have h := groupby_combine_partitions (fun n : Nat => n % 2) [1, 3, 2, 2, 5, 3, 4, 6]
  refine ⟨?_, h.2.2.2 2 (by decide)⟩
  rw [h.1]
  rfl

end LambdaChainProof
